/-
  Verification of the specification of `programming-bitcoin-rs` against a
  shallow embedding of its source code.

  Byte sequences are modelled as `List Nat` (each element a byte value),
  machine integers as `Nat`, and fallible parsing as `Except`.  The parser
  error type distinguishes the tagged `ParserError::ParseError` value from a
  Rust panic (an out-of-range slice index), so that totality claims can be
  settled faithfully.
-/
import Mathlib

namespace BitcoinRs

/-- Rust `Result<_, ParserError>` together with the possibility of a panic:
`.parseError` models `Err(ParserError::ParseError)`, `.panicked` models a
Rust panic such as an out-of-range slice index `&bytes[i..]` with
`i > bytes.len()`. -/
inductive PFail where
  | parseError
  | panicked
deriving DecidableEq, Repr

abbrev PRes (α : Type) := Except PFail α

instance {ε α : Type} [DecidableEq ε] [DecidableEq α] : DecidableEq (Except ε α) :=
  fun x y =>
    match x, y with
    | .ok a, .ok b =>
        if h : a = b then .isTrue (h ▸ rfl)
        else .isFalse (fun hh => h (by injection hh))
    | .error e, .error f =>
        if h : e = f then .isTrue (h ▸ rfl)
        else .isFalse (fun hh => h (by injection hh))
    | .ok _, .error _ => .isFalse (fun hh => by injection hh)
    | .error _, .ok _ => .isFalse (fun hh => by injection hh)

/-- Rust slice expression `&bytes[i..]`: panics when `i > bytes.len()`,
otherwise drops the first `i` elements. -/
def sliceFrom (bs : List Nat) (i : Nat) : PRes (List Nat) :=
  if i ≤ bs.length then .ok (bs.drop i) else .error .panicked

/-- `read_bytes::<N>` from `src/serializer/mod.rs`: `bytes.get(..N)` returns
the first `N` bytes, or `ParserError::ParseError` when fewer are available.
It never panics (`get` is the checked accessor). -/
def read_bytes (n : Nat) (bs : List Nat) : PRes (List Nat) :=
  if n ≤ bs.length then .ok (bs.take n) else .error .parseError

/-- Little-endian byte decomposition of width `k` (`u64::to_le_bytes` etc.,
truncated to the first `k` bytes). -/
def leBytes : Nat → Nat → List Nat
  | 0, _ => []
  | k + 1, v => v % 256 :: leBytes k (v / 256)

/-- `uXX::from_le_bytes`: recombine a little-endian byte list. -/
def fromLeBytes : List Nat → Nat
  | [] => 0
  | b :: bs => b + 256 * fromLeBytes bs

theorem leBytes_length (k v : Nat) : (leBytes k v).length = k := by
  induction k generalizing v with
  | zero => rfl
  | succ k ih => simp [leBytes, ih]

theorem fromLeBytes_leBytes (k v : Nat) (h : v < 256 ^ k) :
    fromLeBytes (leBytes k v) = v := by
  induction k generalizing v with
  | zero => simp [leBytes, fromLeBytes]; omega
  | succ k ih =>
      have hdiv : v / 256 < 256 ^ k := by
        rw [Nat.div_lt_iff_lt_mul (by norm_num)]
        calc v < 256 ^ (k + 1) := h
        _ = 256 ^ k * 256 := by ring
      simp [leBytes, fromLeBytes, ih _ hdiv, Nat.mod_add_div]

theorem leBytes_lt (k v : Nat) : ∀ b ∈ leBytes k v, b < 256 := by
  induction k generalizing v with
  | zero => simp [leBytes]
  | succ k ih =>
      intro b hb
      simp only [leBytes, List.mem_cons] at hb
      rcases hb with h | h
      · subst h; exact Nat.mod_lt _ (by norm_num)
      · exact ih _ _ h

theorem take_leBytes (k v : Nat) : (leBytes k v).take k = leBytes k v :=
  List.take_of_length_le (le_of_eq (leBytes_length k v))

theorem okBind {α β : Type} (a : α) (f : α → PRes β) :
    (do let x ← (.ok a : PRes α); f x) = f a := rfl

theorem errBind {α β : Type} (e : PFail) (f : α → PRes β) :
    (do let x ← (.error e : PRes α); f x) = .error e := rfl

/-! ## VarInt codec (`src/serializer/u64.rs`) -/

/-- `VarIntSerializer::serialize` from `src/serializer/u64.rs`. -/
def VarIntSerializer.serialize (uint : Nat) : List Nat :=
  if uint < 253 then [uint]
  else if uint < 0x10000 then 253 :: leBytes 2 uint
  else if uint < 0x100000000 then 254 :: leBytes 4 uint
  else 255 :: leBytes 8 uint

/-- `VarIntSerializer::parse` from `src/serializer/u64.rs`.  Matches on the
first byte; reads 2/4/8 further bytes for the `0xFD`/`0xFE`/`0xFF` flags.
The slice `&bytes[1..]` is taken only after `bytes.first()` returned
`Some`, so it cannot panic; we keep the explicit slice for faithfulness. -/
def VarIntSerializer.parse (bytes : List Nat) : PRes (Nat × Nat) :=
  match bytes with
  | [] => .error .parseError
  | flag :: _ =>
    if flag < 253 then .ok (flag, 1)
    else if flag = 253 then do
      let intBytes ← read_bytes 2 (bytes.drop 1)
      .ok (fromLeBytes intBytes, 3)
    else if flag = 254 then do
      let intBytes ← read_bytes 4 (bytes.drop 1)
      .ok (fromLeBytes intBytes, 5)
    else if flag = 255 then do
      let intBytes ← read_bytes 8 (bytes.drop 1)
      .ok (fromLeBytes intBytes, 9)
    else .error .parseError

theorem varint_serialize_length (v : Nat) :
    (VarIntSerializer.serialize v).length =
      if v < 253 then 1 else if v < 0x10000 then 3
      else if v < 0x100000000 then 5 else 9 := by
  unfold VarIntSerializer.serialize
  split_ifs <;> simp [leBytes_length]

theorem varint_roundtrip (v : Nat) (h : v < 2 ^ 64) :
    VarIntSerializer.parse (VarIntSerializer.serialize v) =
      .ok (v, (VarIntSerializer.serialize v).length) := by
  unfold VarIntSerializer.serialize VarIntSerializer.parse
  by_cases h1 : v < 253
  · simp [h1]
  · by_cases h2 : v < 0x10000
    · simp only [h1, if_false, h2, if_true]
      simp [read_bytes, leBytes_length, take_leBytes, okBind,
        fromLeBytes_leBytes 2 v h2]
    · by_cases h3 : v < 0x100000000
      · simp only [h1, if_false, h2, if_false, h3, if_true]
        simp [read_bytes, leBytes_length, take_leBytes, okBind,
          fromLeBytes_leBytes 4 v h3]
      · simp only [h1, if_false, h2, if_false, h3, if_false]
        simp [read_bytes, leBytes_length, take_leBytes, okBind,
          fromLeBytes_leBytes 8 v (by simpa using h)]

/-! ## Script model (`src/transaction.rs`) -/

/-- `Command` from `src/transaction.rs`: an opcode or a pushed data element. -/
inductive Command where
  | operation (value : Nat)
  | element (value : List Nat)
deriving DecidableEq, Repr

/-- The per-command validity check of `Script::new`. -/
def Command.valid : Command → Prop
  | .operation value => value > 77
  | .element value => value.length < 0x10000

instance : DecidablePred Command.valid := by
  intro c; cases c <;> simp [Command.valid] <;> infer_instance

/-- `Script` from `src/transaction.rs`: a plain wrapper around the command
list (the invariant is enforced by `Script.new`, not by the type). -/
structure Script where
  commands : List Command
deriving DecidableEq, Repr

inductive ScriptError where
  | invalidCommandsError
deriving DecidableEq, Repr

/-- `Script::new`: accepts the command list iff every `Operation` byte is
`> 77` and every `Element` payload is shorter than `0x10000` bytes. -/
def Script.new (commands : List Command) : Except ScriptError Script :=
  if commands.all (fun c => decide c.valid) then
    .ok ⟨commands⟩
  else
    .error .invalidCommandsError

/-- `Script::empty`: builds the struct directly. -/
def Script.empty : Script := ⟨[]⟩

/-! ## Script codec (`src/serializer/script.rs`) -/

/-- `ScriptSerializer::serialize_command`. -/
def ScriptSerializer.serialize_command : Command → List Nat
  | .operation value => [value]
  | .element elementBytes =>
      let length := elementBytes.length
      if length ≤ 75 then
        length :: elementBytes
      else if 75 < length ∧ length < 0x100 then
        76 :: length :: elementBytes
      else if 0x100 ≤ length ∧ length < 0x10000 then
        77 :: leBytes 2 length ++ elementBytes
      else
        -- "Code unreachable given Script's invariants"
        []

/-- `ScriptSerializer::serialize`: the concatenated command bytes prefixed
with their total length as a VarInt. -/
def ScriptSerializer.serialize (script : Script) : List Nat :=
  let serializedScript := script.commands.flatMap ScriptSerializer.serialize_command
  VarIntSerializer.serialize serializedScript.length ++ serializedScript

/-- Rust `bytecode.get(a..b)`: `some` of the sub-slice when `a ≤ b ≤ len`. -/
def getRange (bs : List Nat) (a b : Nat) : Option (List Nat) :=
  if a ≤ b ∧ b ≤ bs.length then some ((bs.take b).drop a) else none

/-- The body of the `while count < length` loop of `ScriptSerializer::parse`,
with an explicit fuel argument bounding the number of iterations.  Each
iteration advances `count` by at least one, so `fuel = length` always
suffices (`parseCommandsGo_fuel` below); exhaustion is marked `.panicked`
but is unreachable under that bound. -/
def ScriptSerializer.parseCommandsGo (bytecode : List Nat) (length : Nat) :
    Nat → Nat → List Command → PRes (List Command × Nat)
  | 0, count, acc =>
      if count < length then .error .panicked else .ok (acc.reverse, count)
  | fuel + 1, count, acc =>
      if count < length then
        match bytecode[count]? with
        | none => .error .parseError
        | some value =>
          if value ≤ 75 then
            match getRange bytecode (count + 1) (count + 1 + value) with
            | none => .error .parseError
            | some elementBytes =>
                parseCommandsGo bytecode length fuel (count + 1 + value)
                  (.element elementBytes :: acc)
          else if value = 76 then
            match bytecode[count + 1]? with
            | none => .error .parseError
            | some elementLength =>
              match getRange bytecode (count + 2) (count + 2 + elementLength) with
              | none => .error .parseError
              | some elementBytes =>
                  parseCommandsGo bytecode length fuel (count + 2 + elementLength)
                    (.element elementBytes :: acc)
          else if value = 77 then
            match sliceFrom bytecode (count + 1) with
            | .error e => .error e
            | .ok tail =>
              match read_bytes 2 tail with
              | .error e => .error e
              | .ok lengthBytes =>
                let elementLength := fromLeBytes lengthBytes
                match getRange bytecode (count + 3) (count + 3 + elementLength) with
                | none => .error .parseError
                | some elementBytes =>
                    parseCommandsGo bytecode length fuel (count + 3 + elementLength)
                      (.element elementBytes :: acc)
          else
            parseCommandsGo bytecode length fuel (count + 1)
              (.operation value :: acc)
      else .ok (acc.reverse, count)

/-- `ScriptSerializer::parse`: reads the VarInt byte count, then loops over
the declared bytes, finishing with the `Script::new` re-validation. -/
def ScriptSerializer.parse (bytecode : List Nat) : PRes (Script × Nat) := do
  let (length, lengthPrefix) ← VarIntSerializer.parse bytecode
  let body ← sliceFrom bytecode lengthPrefix
  let (commands, count) ← ScriptSerializer.parseCommandsGo body length length 0 []
  match Script.new commands with
  | .error _ => .error .parseError
  | .ok script => .ok (script, lengthPrefix + count)

/-! ### Script codec lemmas -/

theorem getElem?_of_drop {l : List Nat} {count : Nat} {x : Nat} {rest : List Nat}
    (h : l.drop count = x :: rest) : l[count]? = some x := by
  have h0 : (l.drop count)[0]? = some x := by rw [h]; simp
  rwa [List.getElem?_drop, Nat.add_zero] at h0

theorem length_of_drop {l suffix : List Nat} {count : Nat}
    (h : l.drop count = suffix) (hc : count ≤ l.length) :
    l.length = count + suffix.length := by
  subst h; rw [List.length_drop]; omega

theorem getRange_of_drop {l B rest : List Nat} {count n : Nat}
    (h : l.drop count = B ++ rest) (hB : B.length = n) (hc : count ≤ l.length) :
    getRange l count (count + n) = some B := by
  have hlen : l.length = count + (B.length + rest.length) := by
    simpa using length_of_drop h hc
  unfold getRange
  rw [if_pos ⟨Nat.le_add_right _ _, by omega⟩]
  rw [List.drop_take, Nat.add_sub_cancel_left, h, ← hB, List.take_left]

theorem drop_of_drop {l : List Nat} {count k : Nat} {suffix : List Nat}
    (h : l.drop count = suffix) : l.drop (count + k) = suffix.drop k := by
  rw [← h, List.drop_drop, Nat.add_comm]

/-- Under `Script::new`'s validity invariant a serialized command is never
empty (the unreachable `vec![]` branch of `serialize_command` is excluded). -/
theorem serialize_command_length_pos (c : Command) (h : c.valid) :
    1 ≤ (ScriptSerializer.serialize_command c).length := by
  cases c with
  | operation v => simp [ScriptSerializer.serialize_command]
  | element bs =>
      simp only [Command.valid] at h
      simp only [ScriptSerializer.serialize_command]
      split_ifs with h1 h2 h3 <;> simp_all [leBytes_length]

/-- Main loop lemma for `ScriptSerializer::parse`: running the loop from
offset `count` on a byte string whose suffix from `count` is exactly the
concatenated serialization of the valid commands `cs`, with the declared
end `count + (body cs).length`, recovers `cs` and stops at the end. -/
theorem parseCommandsGo_spec (cs : List Command) :
    ∀ (count : Nat) (acc : List Command) (fuel : Nat) (bytecode : List Nat),
      (∀ c ∈ cs, c.valid) →
      (cs.flatMap ScriptSerializer.serialize_command).length ≤ fuel →
      count ≤ bytecode.length →
      bytecode.drop count = cs.flatMap ScriptSerializer.serialize_command →
      ScriptSerializer.parseCommandsGo bytecode
          (count + (cs.flatMap ScriptSerializer.serialize_command).length)
          fuel count acc
        = .ok (acc.reverse ++ cs,
            count + (cs.flatMap ScriptSerializer.serialize_command).length) := by
  induction cs with
  | nil =>
      intro count acc fuel _ _ _ _
      cases fuel <;> simp [ScriptSerializer.parseCommandsGo]
  | cons c cs ih =>
      intro count acc fuel bytecode hvalid hfuel hcle hdrop
      have hcv : c.valid := hvalid c (by simp)
      have hcsv : ∀ c' ∈ cs, c'.valid := fun c' h => hvalid c' (by simp [h])
      have hsc1 : 1 ≤ (ScriptSerializer.serialize_command c).length :=
        serialize_command_length_pos c hcv
      simp only [List.flatMap_cons] at hfuel hdrop ⊢
      set sc := ScriptSerializer.serialize_command c with hsc
      set body := cs.flatMap ScriptSerializer.serialize_command with hbody
      simp only [List.length_append] at hfuel ⊢
      obtain ⟨f, rfl⟩ : ∃ f, fuel = f + 1 := by
        cases fuel
        · exfalso; omega
        · exact ⟨_, rfl⟩
      have hfuel' : body.length ≤ f := by omega
      have hLen : bytecode.length = count + (sc.length + body.length) := by
        simpa using length_of_drop hdrop hcle
      have hcount : count < count + (sc.length + body.length) := by omega
      rw [ScriptSerializer.parseCommandsGo, if_pos hcount]
      cases c with
      | operation v =>
          have hv : v > 77 := hcv
          have hscdef : sc = [v] := rfl
          rw [hscdef] at hdrop
          simp only [getElem?_of_drop hdrop]
          rw [if_neg (by omega), if_neg (by omega), if_neg (by omega)]
          have hdrop' : bytecode.drop (count + 1) = body :=
            drop_of_drop hdrop
          have := ih (count + 1) (.operation v :: acc) f bytecode hcsv hfuel'
            (by omega) hdrop'
          rw [hscdef]
          simp only [List.length_cons, List.length_nil, List.reverse_cons,
            List.append_assoc] at this ⊢
          rw [show count + (0 + 1 + body.length) = count + 1 + body.length by omega]
          simpa using this
      | element bs =>
          have hlen : bs.length < 0x10000 := hcv
          by_cases h75 : bs.length ≤ 75
          · -- 1-byte push form
            have hscdef : sc = bs.length :: bs := by
              simp only [hsc, ScriptSerializer.serialize_command, if_pos h75]
            have hsclen : sc.length = bs.length + 1 := by rw [hscdef]; simp
            rw [hscdef] at hdrop
            simp only [getElem?_of_drop hdrop]
            rw [if_pos h75]
            have hdrop1 : bytecode.drop (count + 1) = bs ++ body :=
              drop_of_drop hdrop
            simp only [getRange_of_drop hdrop1 rfl (by omega : count + 1 ≤ bytecode.length)]
            have hdrop2 : bytecode.drop (count + 1 + bs.length) = body := by
              have := drop_of_drop (k := bs.length) hdrop1
              rwa [List.drop_left] at this
            have := ih (count + 1 + bs.length) (.element bs :: acc) f bytecode
              hcsv hfuel' (by omega) hdrop2
            rw [hscdef]
            simp only [List.length_cons, List.reverse_cons, List.append_assoc] at this ⊢
            rw [show count + (bs.length + 1 + body.length)
                = count + 1 + bs.length + body.length by omega]
            simpa using this
          · by_cases h255 : bs.length < 0x100
            · -- OP_PUSHDATA1 form
              have hscdef : sc = 76 :: bs.length :: bs := by
                simp only [hsc, ScriptSerializer.serialize_command, if_neg h75,
                  if_pos (⟨by omega, h255⟩ : 75 < bs.length ∧ bs.length < 0x100)]
              have hsclen : sc.length = bs.length + 2 := by rw [hscdef]; simp
              rw [hscdef] at hdrop
              simp only [getElem?_of_drop hdrop]
              simp only [if_true]
              have hdrop1 : bytecode.drop (count + 1) = bs.length :: (bs ++ body) :=
                drop_of_drop hdrop
              simp only [getElem?_of_drop hdrop1]
              have hdrop2 : bytecode.drop (count + 2) = bs ++ body := by
                have := drop_of_drop (k := 1) hdrop1
                rwa [show count + 1 + 1 = count + 2 by omega] at this
              simp only [getRange_of_drop hdrop2 rfl (by omega : count + 2 ≤ bytecode.length)]
              have hdrop3 : bytecode.drop (count + 2 + bs.length) = body := by
                have := drop_of_drop (k := bs.length) hdrop2
                rwa [List.drop_left] at this
              have := ih (count + 2 + bs.length) (.element bs :: acc) f bytecode
                hcsv hfuel' (by omega) hdrop3
              rw [hscdef]
              simp only [List.length_cons, List.reverse_cons, List.append_assoc] at this ⊢
              rw [show count + (bs.length + 1 + 1 + body.length)
                  = count + 2 + bs.length + body.length by omega]
              simpa using this
            · -- OP_PUSHDATA2 form
              have hscdef : sc = (77 :: leBytes 2 bs.length) ++ bs := by
                rw [hsc]
                show ScriptSerializer.serialize_command (.element bs) = _
                simp only [ScriptSerializer.serialize_command, if_neg h75,
                  if_neg (by omega : ¬(75 < bs.length ∧ bs.length < 0x100)),
                  if_pos (⟨by omega, hlen⟩ : 0x100 ≤ bs.length ∧ bs.length < 0x10000)]
              rw [hscdef] at hdrop
              have hdropc : bytecode.drop count
                  = 77 :: (leBytes 2 bs.length ++ (bs ++ body)) := by
                simpa [List.append_assoc] using hdrop
              simp only [getElem?_of_drop hdropc]
              simp only [if_true]
              have hsclen : sc.length = 3 + bs.length := by
                rw [hscdef]; simp [leBytes_length]; omega
              have hdrop1 : bytecode.drop (count + 1)
                  = leBytes 2 bs.length ++ (bs ++ body) := by
                have h1 := drop_of_drop (k := 1) hdropc
                simpa using h1
              have hslice : sliceFrom bytecode (count + 1)
                  = .ok (leBytes 2 bs.length ++ (bs ++ body)) := by
                unfold sliceFrom
                rw [if_pos (by omega), hdrop1]
              simp only [hslice]
              have hread : read_bytes 2 (leBytes 2 bs.length ++ (bs ++ body))
                  = .ok (leBytes 2 bs.length) := by
                unfold read_bytes
                rw [if_pos (by simp [leBytes_length]),
                  List.take_left' (leBytes_length 2 bs.length)]
              simp only [hread, fromLeBytes_leBytes 2 bs.length hlen]
              have hdrop2 : bytecode.drop (count + 3) = bs ++ body := by
                have h3 := drop_of_drop (k := 2) hdrop1
                rwa [show count + 1 + 2 = count + 3 by omega,
                  List.drop_left' (leBytes_length 2 bs.length)] at h3
              simp only [getRange_of_drop hdrop2 rfl
                (by omega : count + 3 ≤ bytecode.length)]
              have hdrop3 : bytecode.drop (count + 3 + bs.length) = body := by
                have h4 := drop_of_drop (k := bs.length) hdrop2
                rwa [List.drop_left] at h4
              have := ih (count + 3 + bs.length) (.element bs :: acc) f bytecode
                hcsv hfuel' (by omega) hdrop3
              simp only [List.reverse_cons, List.append_assoc] at this ⊢
              rw [show count + (sc.length + body.length)
                  = count + 3 + bs.length + body.length by omega]
              simpa using this

theorem varint_parse_append (v : Nat) (h : v < 2 ^ 64) (rest : List Nat) :
    VarIntSerializer.parse (VarIntSerializer.serialize v ++ rest) =
      .ok (v, (VarIntSerializer.serialize v).length) := by
  have hrb : ∀ k : Nat, read_bytes k (leBytes k v ++ rest) = .ok (leBytes k v) := by
    intro k
    unfold read_bytes
    rw [if_pos (by rw [List.length_append, leBytes_length]; exact Nat.le_add_right _ _),
      List.take_left' (leBytes_length k v)]
  unfold VarIntSerializer.serialize VarIntSerializer.parse
  by_cases h1 : v < 253
  · simp [h1]
  · by_cases h2 : v < 0x10000
    · simp [h1, h2, hrb 2, okBind, fromLeBytes_leBytes 2 v h2, leBytes_length]
    · by_cases h3 : v < 0x100000000
      · simp [h1, h2, h3, hrb 4, okBind, fromLeBytes_leBytes 4 v h3, leBytes_length]
      · simp [h1, h2, h3, hrb 8, okBind,
          fromLeBytes_leBytes 8 v (by simpa using h), leBytes_length]

theorem sliceFrom_append (A B : List Nat) : sliceFrom (A ++ B) A.length = .ok B := by
  unfold sliceFrom
  rw [if_pos (by simp), List.drop_left]

/-- `C7` — Script `Element` push forms: the 1-byte push form for payloads of
at most 75 bytes, `OP_PUSHDATA1` (marker 76 plus one length byte) for
lengths 76–255, `OP_PUSHDATA2` (marker 77 plus a two-byte little-endian
length) for lengths 256–0xFFFF; and an `Element` of `0x10000` bytes is
rejected by `Script::new` with a construction error. -/
theorem claim_C7_push_forms (bs : List Nat) :
    (ScriptSerializer.serialize_command (.element bs) =
      if bs.length ≤ 75 then bs.length :: bs
      else if bs.length ≤ 255 then [76, bs.length] ++ bs
      else if bs.length ≤ 0xFFFF then
        [77, bs.length % 256, bs.length / 256 % 256] ++ bs
      else []) ∧
    Script.new [.element (List.replicate 0x10000 0)] = .error .invalidCommandsError := by
  constructor
  · simp only [ScriptSerializer.serialize_command]
    split_ifs <;> first | rfl | (exfalso; omega)
  · have hbad : ¬ ([Command.element (List.replicate 0x10000 (0:Nat))].all
        fun c => decide c.valid) = true := by
      simp only [List.all_cons, List.all_nil, Bool.and_true, decide_eq_true_eq,
        Command.valid, List.length_replicate]
      omega
    unfold Script.new
    rw [if_neg hbad]

/-- `C8` — Script round-trip: for every valid `Script` value (every
`Operation` byte `> 77`, every `Element` shorter than `0x10000` bytes, and
a total body length representable as a `u64`/`usize`), parsing its
serialization returns the same script and consumes exactly the serialized
length. -/
theorem claim_C8_script_roundtrip (s : Script)
    (hval : ∀ c ∈ s.commands, c.valid)
    (hlen : (s.commands.flatMap ScriptSerializer.serialize_command).length < 2 ^ 64) :
    ScriptSerializer.parse (ScriptSerializer.serialize s)
      = .ok (s, (ScriptSerializer.serialize s).length) := by
  have hloop := parseCommandsGo_spec s.commands 0 []
    (s.commands.flatMap ScriptSerializer.serialize_command).length
    (s.commands.flatMap ScriptSerializer.serialize_command) hval le_rfl
    (Nat.zero_le _) rfl
  unfold ScriptSerializer.parse ScriptSerializer.serialize
  rw [varint_parse_append _ hlen]
  simp only [okBind]
  rw [sliceFrom_append]
  simp only [okBind]
  simp only [Nat.zero_add, List.reverse_nil, List.nil_append] at hloop
  rw [hloop]
  simp only [okBind]
  have hnew : Script.new s.commands = .ok s := by
    have hall : (s.commands.all fun c => decide c.valid) = true := by
      rw [List.all_eq_true]
      intro c hc
      simpa using hval c hc
    unfold Script.new
    rw [if_pos hall]
  rw [hnew]
  simp [varint_serialize_length]

/-- `C8` witness: a concrete valid script round-trips through the codec. -/
theorem claim_C8_script_roundtrip_witness :
    (∀ c ∈ (Script.mk [.operation 0xac, .element [1, 2, 3]]).commands, c.valid) ∧
    ((Script.mk [.operation 0xac, .element [1, 2, 3]]).commands.flatMap
        ScriptSerializer.serialize_command).length < 2 ^ 64 ∧
    ScriptSerializer.parse
        (ScriptSerializer.serialize (Script.mk [.operation 0xac, .element [1, 2, 3]]))
      = .ok (Script.mk [.operation 0xac, .element [1, 2, 3]],
          (ScriptSerializer.serialize
            (Script.mk [.operation 0xac, .element [1, 2, 3]])).length) :=
  ⟨by decide, by decide,
    claim_C8_script_roundtrip (Script.mk [.operation 0xac, .element [1, 2, 3]])
      (by decide) (by decide)⟩

/-- `C9` — VarInt codec: serialization emits a single byte for values below
253, `0xFD` plus two little-endian bytes below `0x10000`, `0xFE` plus four
below `0x100000000`, and `0xFF` plus eight otherwise; parsing is the exact
inverse on these encodings (also with trailing bytes present), reporting the
encoding length as bytes consumed; and parsing fails with `ParseError` when
the input is shorter than the flag byte demands. -/
theorem claim_C9_varint (v : Nat) (hv : v < 2 ^ 64) :
    (VarIntSerializer.serialize v =
      if v < 253 then [v]
      else if v < 0x10000 then [253, v % 256, v / 256 % 256]
      else if v < 0x100000000 then
        [254, v % 256, v / 256 % 256, v / 256 / 256 % 256, v / 256 / 256 / 256 % 256]
      else
        [255, v % 256, v / 256 % 256, v / 256 / 256 % 256, v / 256 / 256 / 256 % 256,
          v / 256 / 256 / 256 / 256 % 256, v / 256 / 256 / 256 / 256 / 256 % 256,
          v / 256 / 256 / 256 / 256 / 256 / 256 % 256,
          v / 256 / 256 / 256 / 256 / 256 / 256 / 256 % 256]) ∧
    (∀ rest : List Nat,
      VarIntSerializer.parse (VarIntSerializer.serialize v ++ rest)
        = .ok (v, (VarIntSerializer.serialize v).length)) ∧
    ((VarIntSerializer.serialize v).length =
      if v < 253 then 1 else if v < 0x10000 then 3
      else if v < 0x100000000 then 5 else 9) ∧
    (∀ rest : List Nat,
      (rest.length < 2 → VarIntSerializer.parse (253 :: rest) = .error .parseError) ∧
      (rest.length < 4 → VarIntSerializer.parse (254 :: rest) = .error .parseError) ∧
      (rest.length < 8 → VarIntSerializer.parse (255 :: rest) = .error .parseError)) ∧
    VarIntSerializer.parse [] = .error .parseError := by
  refine ⟨?_, fun rest => varint_parse_append v hv rest, varint_serialize_length v,
    fun rest => ⟨?_, ?_, ?_⟩, rfl⟩
  · unfold VarIntSerializer.serialize
    split_ifs <;> rfl
  all_goals
    intro hshort
    simp [VarIntSerializer.parse, read_bytes, errBind, Nat.not_le.mpr hshort]

/-- `C9` witness: the three-byte encoding of 62500 round-trips (also with a
trailing byte), and a truncated `0xFD` input is a `ParseError`. -/
theorem claim_C9_varint_witness :
    (62500 : Nat) < 2 ^ 64 ∧
    VarIntSerializer.serialize 62500 = [253, 36, 244] ∧
    VarIntSerializer.parse (VarIntSerializer.serialize 62500 ++ [9])
      = .ok (62500, (VarIntSerializer.serialize 62500).length) ∧
    VarIntSerializer.parse [253, 36] = .error .parseError := by
  have h := claim_C9_varint 62500 (by decide)
  exact ⟨by decide, by decide, h.2.1 [9], (h.2.2.2.1 [36]).1 (by decide)⟩


/-! ## Transaction model and codec (`src/transaction.rs`,
`src/serializer/transaction.rs`) -/

/-- `Input` from `src/transaction.rs` (`source_id` is the 32-byte displayed
transaction id). -/
structure Input where
  source_id : List Nat
  source_index : Nat
  script_sig : Script
  sequence : Nat
deriving DecidableEq, Repr

/-- `Output` from `src/transaction.rs`. -/
structure Output where
  amount : Nat
  script_pubkey : Script
deriving DecidableEq, Repr

/-- `Transaction` from `src/transaction.rs`. -/
structure Transaction where
  version : Nat
  inputs : List Input
  outputs : List Output
  locktime : Nat
deriving DecidableEq, Repr

namespace TransactionSerializer

/-- `TransactionSerializer::serialize_input`. -/
def serialize_input (input : Input) : List Nat :=
  input.source_id.reverse ++ leBytes 4 input.source_index ++
    ScriptSerializer.serialize input.script_sig ++ leBytes 4 input.sequence

/-- `TransactionSerializer::serialize_output`. -/
def serialize_output (output : Output) : List Nat :=
  leBytes 8 output.amount ++ ScriptSerializer.serialize output.script_pubkey

/-- `TransactionSerializer::serialize`. -/
def serialize (transaction : Transaction) : List Nat :=
  leBytes 4 transaction.version ++
    VarIntSerializer.serialize transaction.inputs.length ++
    transaction.inputs.flatMap serialize_input ++
    VarIntSerializer.serialize transaction.outputs.length ++
    transaction.outputs.flatMap serialize_output ++
    leBytes 4 transaction.locktime

/-- `TransactionSerializer::parse_input`.  The slices `&bytes[32..]`,
`&bytes[36..]` and `&bytes[(36 + script_length)..]` are modelled by
`sliceFrom` (which records the panic case). -/
def parse_input (bytes : List Nat) : PRes (Input × Nat) := do
  let sourceIdBytes ← read_bytes 32 bytes
  let rest32 ← sliceFrom bytes 32
  let sourceIndexBytes ← read_bytes 4 rest32
  let rest36 ← sliceFrom bytes 36
  let (scriptSig, scriptLength) ← ScriptSerializer.parse rest36
  let restSeq ← sliceFrom bytes (36 + scriptLength)
  let sequenceBytes ← read_bytes 4 restSeq
  .ok (⟨sourceIdBytes.reverse, fromLeBytes sourceIndexBytes, scriptSig,
      fromLeBytes sequenceBytes⟩,
    32 + 4 + scriptLength + 4)

/-- `TransactionSerializer::parse_output`. -/
def parse_output (bytes : List Nat) : PRes (Output × Nat) := do
  let amountBytes ← read_bytes 8 bytes
  let rest8 ← sliceFrom bytes 8
  let (scriptPubkey, scriptLength) ← ScriptSerializer.parse rest8
  .ok (⟨fromLeBytes amountBytes, scriptPubkey⟩, 8 + scriptLength)

/-- The `for _ in 0..n` parsing loops of `TransactionSerializer::parse`:
each iteration slices the buffer at the running offset and parses one item. -/
def parseItems {α : Type} (parseOne : List Nat → PRes (α × Nat))
    (bytes : List Nat) : Nat → Nat → PRes (List α × Nat)
  | 0, offset => .ok ([], offset)
  | k + 1, offset => do
      let tail ← sliceFrom bytes offset
      let (item, itemLength) ← parseOne tail
      let (rest, finalOffset) ← parseItems parseOne bytes k (offset + itemLength)
      .ok (item :: rest, finalOffset)

/-- `TransactionSerializer::parse`.  NOTE: after parsing the output-count
VarInt the source advances the offset by `num_inputs_length` (the length of
the *input*-count prefix) instead of the freshly parsed
`_num_outputs_length`; the embedding reproduces that line faithfully. -/
def parse (bytes : List Nat) : PRes (Transaction × Nat) := do
  let versionBytes ← read_bytes 4 bytes
  let version := fromLeBytes versionBytes
  let offset := 4
  let tailInputs ← sliceFrom bytes offset
  let (numberInputs, numInputsLength) ← VarIntSerializer.parse tailInputs
  let offset := offset + numInputsLength
  let (inputs, offset) ← parseItems parse_input bytes numberInputs offset
  let tailOutputs ← sliceFrom bytes offset
  let (numberOutputs, _numOutputsLength) ← VarIntSerializer.parse tailOutputs
  let offset := offset + numInputsLength
  let (outputs, offset) ← parseItems parse_output bytes numberOutputs offset
  let tailLocktime ← sliceFrom bytes offset
  let locktimeBytes ← read_bytes 4 tailLocktime
  let locktime := fromLeBytes locktimeBytes
  let offset := offset + 4
  .ok (⟨version, inputs, outputs, locktime⟩, offset)

end TransactionSerializer

/-! ## U256 codecs (`src/serializer/u256.rs`) -/

/-- Big-endian byte decomposition of width `k`. -/
def beBytes (k v : Nat) : List Nat := (leBytes k v).reverse

/-- Recombine big-endian bytes (`U256::from_bytes_be` on a 32-byte slice). -/
def fromBeBytes (bs : List Nat) : Nat := fromLeBytes bs.reverse

/-- `U256BigEndianSerializer::serialize`: the 32-byte big-endian form (the
source walks the four 64-bit limbs most-significant first). -/
def U256BigEndianSerializer.serialize (element : Nat) : List Nat :=
  beBytes 32 element

/-- Rust slice expression `&bytes[..n]`: panics when `n > bytes.len()`. -/
def sliceTo (bs : List Nat) (n : Nat) : PRes (List Nat) :=
  if n ≤ bs.length then .ok (bs.take n) else .error .panicked

/-- `U256BigEndianSerializer::parse`: takes the slice `&bytes[..32]` (a
panic when fewer than 32 bytes are available) and decodes it; on a 32-byte
slice `U256::from_bytes_be` always succeeds. -/
def U256BigEndianSerializer.parse (bytes : List Nat) : PRes (Nat × Nat) := do
  let headBytes ← sliceTo bytes 32
  .ok (fromBeBytes headBytes, 32)

/-- `U256DERSerializer::serialize`: strip leading zero bytes, prepend a zero
byte when the first remaining byte is *strictly greater* than `0x80`, then
prefix the one-byte length. -/
def U256DERSerializer.serialize (element : Nat) : List Nat :=
  let serialized := (U256BigEndianSerializer.serialize element).dropWhile (· == 0)
  let serialized :=
    if (serialized.head?.map (fun b => decide (b > 0x80))).getD false then
      0 :: serialized
    else serialized
  serialized.length :: serialized

/-- Shared below: the transaction with no inputs and 253 minimal outputs
that exhibits the offset slip of `TransactionSerializer::parse`. -/
def buggyTx : Transaction := ⟨1, [], List.replicate 253 ⟨0, Script.empty⟩, 0⟩

theorem serialize_output_zero :
    TransactionSerializer.serialize_output ⟨0, Script.empty⟩ = List.replicate 9 0 := by
  decide

theorem flatMap_serialize_output_replicate (k : Nat) :
    (List.replicate k (⟨0, Script.empty⟩ : Output)).flatMap
        TransactionSerializer.serialize_output = List.replicate (9 * k) 0 := by
  induction k with
  | zero => rfl
  | succ k ih =>
      rw [List.replicate_succ, List.flatMap_cons, ih, serialize_output_zero,
        ← List.replicate_add, show 9 + 9 * k = 9 * (k + 1) by ring]

theorem serialize_buggyTx :
    TransactionSerializer.serialize buggyTx
      = [1, 0, 0, 0, 0, 253, 253, 0] ++ List.replicate 2281 0 := by
  unfold TransactionSerializer.serialize buggyTx
  simp only [List.length_replicate, List.flatMap_nil, List.length_nil]
  rw [flatMap_serialize_output_replicate 253]
  rw [show VarIntSerializer.serialize 0 = [0] from rfl,
    show VarIntSerializer.serialize 253 = [253, 253, 0] from rfl,
    show leBytes 4 1 = [1, 0, 0, 0] from rfl,
    show leBytes 4 0 = List.replicate 4 0 from rfl,
    show 9 * 253 = 2277 from rfl]
  rw [show (2281 : Nat) = 2277 + 4 from rfl, List.replicate_add]
  simp only [List.append_assoc, List.cons_append, List.nil_append]

theorem script_parse_zero (rest : List Nat) :
    ScriptSerializer.parse (0 :: rest) = .ok (Script.empty, 1) := by
  unfold ScriptSerializer.parse
  rw [show VarIntSerializer.parse (0 :: rest) = .ok (0, 1) from rfl]
  simp only [okBind]
  rw [show sliceFrom (0 :: rest) 1 = .ok rest by
    unfold sliceFrom; rw [if_pos (by simp)]; rfl]
  simp only [okBind]
  rw [show ScriptSerializer.parseCommandsGo rest 0 0 0 [] = .ok ([], 0) by
    unfold ScriptSerializer.parseCommandsGo; rfl]
  simp only [okBind]
  rw [show Script.new [] = .ok Script.empty from rfl]

theorem parse_output_zeros (m : Nat) (tail : List Nat) (hm : 9 ≤ m) :
    TransactionSerializer.parse_output (List.replicate m 0 ++ tail)
      = .ok (⟨0, Script.empty⟩, 9) := by
  unfold TransactionSerializer.parse_output
  rw [show read_bytes 8 (List.replicate m 0 ++ tail) = .ok (List.replicate 8 0) by
    unfold read_bytes
    rw [if_pos (by simp; omega), List.take_append_eq_append_take, List.take_replicate,
      List.length_replicate, show min 8 m = 8 by omega,
      show (8 - m : Nat) = 0 by omega, List.take_zero, List.append_nil]]
  simp only [okBind]
  rw [show sliceFrom (List.replicate m 0 ++ tail) 8
      = .ok (List.replicate (m - 8) 0 ++ tail) by
    unfold sliceFrom
    rw [if_pos (by simp; omega), List.drop_append_eq_append_drop, List.drop_replicate,
      List.length_replicate, show (8 - m : Nat) = 0 by omega, List.drop_zero]]
  simp only [okBind]
  rw [show List.replicate (m - 8) 0 ++ tail = 0 :: (List.replicate (m - 9) 0 ++ tail) by
    rw [show m - 8 = (m - 9) + 1 by omega, List.replicate_succ]; rfl]
  rw [script_parse_zero]
  simp only [okBind]
  rw [show fromLeBytes (List.replicate 8 0) = 0 from rfl]

theorem parseItems_output_zeros (bytes : List Nat) :
    ∀ (k offset m : Nat) (tail : List Nat),
      bytes.drop offset = List.replicate m 0 ++ tail →
      offset ≤ bytes.length →
      9 * k ≤ m →
      TransactionSerializer.parseItems TransactionSerializer.parse_output bytes k offset
        = .ok (List.replicate k ⟨0, Script.empty⟩, offset + 9 * k) := by
  intro k
  induction k with
  | zero => intro offset m tail _ _ _; simp [TransactionSerializer.parseItems]
  | succ k ih =>
      intro offset m tail hdrop hoff hm
      unfold TransactionSerializer.parseItems
      rw [show sliceFrom bytes offset = .ok (List.replicate m 0 ++ tail) by
        unfold sliceFrom; rw [if_pos hoff, hdrop]]
      simp only [okBind]
      rw [parse_output_zeros m tail (by omega)]
      simp only [okBind]
      have hlen : bytes.length = offset + (m + tail.length) := by
        have := length_of_drop hdrop hoff
        simpa using this
      have hdrop9 : bytes.drop (offset + 9) = List.replicate (m - 9) 0 ++ tail := by
        rw [drop_of_drop hdrop, List.drop_append_eq_append_drop, List.drop_replicate,
          List.length_replicate, show (9 - m : Nat) = 0 by omega, List.drop_zero]
      rw [ih (offset + 9) (m - 9) tail hdrop9 (by omega) (by omega)]
      rw [List.replicate_succ]
      rw [show offset + 9 + 9 * k = offset + 9 * (k + 1) by ring]
      rfl

/-- The first (mis-aligned) output read of the buggy parse: amount bytes
`253, 0, 0, 0, 0, 0, 0, 0`, then an empty script.  The zero tail is kept
symbolic (`k`) so every list computation below stays on short literals. -/
theorem parse_output_253 (k : Nat) (hk : 7 ≤ k) :
    TransactionSerializer.parse_output (253 :: 0 :: List.replicate k 0)
      = .ok (⟨253, Script.empty⟩, 9) := by
  unfold TransactionSerializer.parse_output
  rw [show read_bytes 8 (253 :: 0 :: List.replicate k (0:Nat))
      = .ok (253 :: 0 :: List.replicate 6 0) by
    unfold read_bytes
    rw [if_pos (by simp only [List.length_cons, List.length_replicate]; omega)]
    rw [show List.take 8 (253 :: 0 :: List.replicate k (0:Nat))
        = 253 :: 0 :: List.take 6 (List.replicate k 0) from rfl,
      List.take_replicate, show min 6 k = 6 by omega]]
  simp only [okBind]
  rw [show sliceFrom (253 :: 0 :: List.replicate k (0:Nat)) 8
      = .ok (List.replicate (k - 6) 0) by
    unfold sliceFrom
    rw [if_pos (by simp only [List.length_cons, List.length_replicate]; omega)]
    rw [show List.drop 8 (253 :: 0 :: List.replicate k (0:Nat))
        = List.drop 6 (List.replicate k 0) from rfl,
      List.drop_replicate]]
  simp only [okBind]
  rw [show List.replicate (k - 6) (0:Nat) = 0 :: List.replicate (k - 7) 0 by
    rw [show k - 6 = (k - 7) + 1 by omega, List.replicate_succ]]
  rw [script_parse_zero]
  simp only [okBind]
  rw [show fromLeBytes (253 :: 0 :: List.replicate 6 0) = 253 from by decide]

/-- The buggy output loop: started two bytes early (offset 6), it reads one
output of amount 253 and then 252 zero outputs, ending at offset 2283. -/
theorem parseItems_buggy (m : Nat) (hm : m = 2281) :
    TransactionSerializer.parseItems TransactionSerializer.parse_output
        ([1, 0, 0, 0, 0, 253, 253, 0] ++ List.replicate m 0) (252 + 1) (4 + 1 + 1)
      = .ok (⟨253, Script.empty⟩ :: List.replicate 252 ⟨0, Script.empty⟩, 2283) := by
  have hlen : ([1, 0, 0, 0, 0, 253, 253, 0] ++ List.replicate m (0:Nat)).length
      = 8 + m := by
    simp only [List.length_append, List.length_cons, List.length_nil,
      List.length_replicate]
  unfold TransactionSerializer.parseItems
  rw [show sliceFrom ([1, 0, 0, 0, 0, 253, 253, 0] ++ List.replicate m 0) (4 + 1 + 1)
      = .ok (253 :: 0 :: List.replicate m 0) by
    unfold sliceFrom
    rw [if_pos (by rw [hlen]; omega)]
    rw [show List.drop (4 + 1 + 1) ([1, 0, 0, 0, 0, 253, 253, 0]
          ++ List.replicate m (0:Nat))
        = 253 :: 0 :: List.replicate m 0 from rfl]]
  simp only [okBind]
  rw [parse_output_253 m (by omega)]
  simp only [okBind]
  rw [parseItems_output_zeros ([1, 0, 0, 0, 0, 253, 253, 0] ++ List.replicate m 0) 252
      (4 + 1 + 1 + 9) (m - 7) []
    (by
      rw [List.drop_append_eq_append_drop, List.drop_replicate, List.append_nil]
      rw [show List.drop (4 + 1 + 1 + 9) [1, 0, 0, 0, 0, 253, 253, (0:Nat)] = [] from rfl,
        show (4 + 1 + 1 + 9) - [1, 0, 0, 0, 0, 253, 253, (0:Nat)].length = 7 from rfl,
        List.nil_append])
    (by rw [hlen]; omega) (by omega)]
  rw [show 4 + 1 + 1 + 9 + 9 * 252 = 2283 from by norm_num]
  rfl

/-- Parsing the serialized `buggyTx` byte string, with the 2281-byte zero
tail kept symbolic so no list literal beyond the 8-byte head is ever
unfolded: the parser returns the shifted transaction at offset 2287. -/
theorem parse_buggy_bytes (m : Nat) (hm : m = 2281) :
    TransactionSerializer.parse ([1, 0, 0, 0, 0, 253, 253, 0] ++ List.replicate m 0)
      = .ok (⟨1, [], ⟨253, Script.empty⟩ :: List.replicate 252 ⟨0, Script.empty⟩, 0⟩,
          2287) := by
  have hlen : ([1, 0, 0, 0, 0, 253, 253, 0] ++ List.replicate m (0:Nat)).length
      = 8 + m := by
    simp only [List.length_append, List.length_cons, List.length_nil,
      List.length_replicate]
  unfold TransactionSerializer.parse
  rw [show read_bytes 4 ([1, 0, 0, 0, 0, 253, 253, 0] ++ List.replicate m 0)
      = .ok [1, 0, 0, 0] by
    unfold read_bytes
    rw [if_pos (by rw [hlen]; omega)]
    rw [show List.take 4 ([1, 0, 0, 0, 0, 253, 253, 0] ++ List.replicate m (0:Nat))
        = [1, 0, 0, 0] from rfl]]
  simp only [okBind]
  rw [show sliceFrom ([1, 0, 0, 0, 0, 253, 253, 0] ++ List.replicate m 0) 4
      = .ok (0 :: 253 :: 253 :: 0 :: List.replicate m 0) by
    unfold sliceFrom
    rw [if_pos (by rw [hlen]; omega)]
    rw [show List.drop 4 ([1, 0, 0, 0, 0, 253, 253, 0] ++ List.replicate m (0:Nat))
        = 0 :: 253 :: 253 :: 0 :: List.replicate m 0 from rfl]]
  simp only [okBind]
  rw [show VarIntSerializer.parse (0 :: 253 :: 253 :: 0 :: List.replicate m 0)
      = .ok (0, 1) by
    simp only [VarIntSerializer.parse]
    rw [if_pos (by omega : (0:Nat) < 253)]]
  simp only [okBind]
  rw [show TransactionSerializer.parseItems TransactionSerializer.parse_input
      ([1, 0, 0, 0, 0, 253, 253, 0] ++ List.replicate m 0) 0 (4 + 1)
      = .ok ([], 4 + 1) from rfl]
  simp only [okBind]
  rw [show sliceFrom ([1, 0, 0, 0, 0, 253, 253, 0] ++ List.replicate m 0) (4 + 1)
      = .ok (253 :: 253 :: 0 :: List.replicate m 0) by
    unfold sliceFrom
    rw [if_pos (by rw [hlen]; omega)]
    rw [show List.drop (4 + 1) ([1, 0, 0, 0, 0, 253, 253, 0] ++ List.replicate m (0:Nat))
        = 253 :: 253 :: 0 :: List.replicate m 0 from rfl]]
  simp only [okBind]
  rw [show VarIntSerializer.parse (253 :: 253 :: 0 :: List.replicate m 0)
      = .ok (253, 3) by
    simp only [VarIntSerializer.parse]
    rw [if_neg (by omega : ¬ (253:Nat) < 253)]
    simp only [if_true]
    rw [show read_bytes 2 ((253 :: 253 :: 0 :: List.replicate m (0:Nat)).drop 1)
        = .ok [253, 0] by
      unfold read_bytes
      rw [if_pos (by
        simp only [List.drop_succ_cons, List.drop_zero, List.length_cons,
          List.length_replicate]
        omega)]
      rw [show List.take 2 ((253 :: 253 :: 0 :: List.replicate m (0:Nat)).drop 1)
          = [253, 0] from rfl]]
    simp only [okBind]
    rfl]
  simp only [okBind]
  -- the buggy line: offset advances by num_inputs_length = 1, to 6
  rw [parseItems_buggy m hm]
  simp only [okBind]
  rw [show sliceFrom ([1, 0, 0, 0, 0, 253, 253, 0] ++ List.replicate m 0) 2283
      = .ok (List.replicate 6 0) by
    unfold sliceFrom
    rw [if_pos (by rw [hlen]; omega)]
    rw [List.drop_append_eq_append_drop, List.drop_replicate]
    rw [show List.drop 2283 [1, 0, 0, 0, 0, 253, 253, (0:Nat)] = [] from rfl,
      show (2283 : Nat) - [1, 0, 0, 0, 0, 253, 253, (0:Nat)].length = 2275 from rfl,
      show m - 2275 = 6 by omega, List.nil_append]]
  simp only [okBind]
  rw [show read_bytes 4 (List.replicate 6 (0:Nat)) = .ok (List.replicate 4 0) by
    unfold read_bytes
    rw [if_pos (by simp), List.take_replicate]
    rfl]
  simp only [okBind]
  rw [show fromLeBytes (List.replicate 4 0) = 0 from rfl,
    show fromLeBytes [1, 0, 0, 0] = 1 from rfl]

/-- `C2` — the transaction round-trip fails: for the valid transaction
`buggyTx` with no inputs and 253 empty outputs, the output-count VarInt
occupies three bytes but `TransactionSerializer::parse` advances the offset
by `num_inputs_length` (one byte; the line `offset += num_inputs_length;`
after the output-count VarInt), so parsing the serialization misreads the
output stream (first amount 253, total 2287 of 2289 bytes) instead of
returning the original transaction with the serialized length. -/
theorem claim_C2_transaction_roundtrip_fails :
    TransactionSerializer.parse (TransactionSerializer.serialize buggyTx)
        = .ok (⟨1, [], ⟨253, Script.empty⟩ :: List.replicate 252 ⟨0, Script.empty⟩, 0⟩,
            2287) ∧
    TransactionSerializer.parse (TransactionSerializer.serialize buggyTx)
        ≠ .ok (buggyTx, (TransactionSerializer.serialize buggyTx).length) := by
  have hmain : TransactionSerializer.parse (TransactionSerializer.serialize buggyTx)
      = .ok (⟨1, [], ⟨253, Script.empty⟩ :: List.replicate 252 ⟨0, Script.empty⟩, 0⟩,
          2287) := by
    rw [serialize_buggyTx]
    exact parse_buggy_bytes 2281 rfl
  refine ⟨hmain, ?_⟩
  rw [hmain]
  intro hcontra
  have hlen2289 : (TransactionSerializer.serialize buggyTx).length = 2289 := by
    rw [serialize_buggyTx]
    simp only [List.length_append, List.length_cons, List.length_nil,
      List.length_replicate]
  rw [hlen2289] at hcontra
  have := congrArg (fun r => match r with | .ok (_, k) => k | _ => 0) hcontra
  simp at this

/-- `C3` — parsing is not total: `U256BigEndianSerializer::parse` takes the
slice `&bytes[..32]` before any length check, so an input shorter than 32
bytes panics instead of returning the tagged `ParseError` (the adjacent
`map_err(|_| ParserError::ParseError)` shows the tagged failure was the
intent). -/
theorem claim_C3_u256_parse_panics :
    U256BigEndianSerializer.parse [] = .error .panicked ∧
    U256BigEndianSerializer.parse (List.replicate 31 0) = .error .panicked ∧
    U256BigEndianSerializer.parse (List.replicate 31 0) ≠ .error .parseError := by
  refine ⟨rfl, ?_, ?_⟩ <;> decide

/-- `C4` — the DER integer encoder pads with a leading zero byte only when
the first remaining byte is *strictly greater* than `0x80`: the 256-bit
value `0x80` therefore encodes as `[0x01, 0x80]`, not the `[0x02, 0x00,
0x80]` required by the claim's `≥ 0x80` rule (under ASN.1 signed-integer
rules `[0x01, 0x80]` denotes the negative value `-128`). -/
theorem claim_C4_der_pad_boundary :
    U256DERSerializer.serialize 0x80 = [1, 0x80] ∧
    U256DERSerializer.serialize 0x80 ≠ [2, 0, 0x80] ∧
    U256DERSerializer.serialize 0x81 = [2, 0, 0x81] := by
  refine ⟨?_, ?_, ?_⟩ <;> decide

/-! ## Address encoding: Bech32 (`src/address.rs`) -/

/-- `Chain` from `src/address.rs`. -/
inductive Chain where
  | testNet
  | mainNet
deriving DecidableEq, Repr

/-- `Chain::hrp`, as ASCII bytes (`b"tb"` / `b"bc"`). -/
def Chain.hrp : Chain → List Nat
  | .testNet => [0x74, 0x62]
  | .mainNet => [0x62, 0x63]

/-- The body of the inner `for byte in number.iter()` loop of `to_base`:
long division of the big-endian byte string by `N`, producing the quotient
digits (leading zeros skipped) and the remainder. -/
def toBaseStep (N : Nat) (state : List Nat × Nat) (byte : Nat) : List Nat × Nat :=
  let (quotient, remainder) := state
  let acc := byte + 256 * remainder
  let digit := acc / N
  let remainder := acc % N
  (if digit > 0 ∨ ¬ quotient.isEmpty then quotient ++ [digit] else quotient, remainder)

/-- One pass of the outer `while` loop of `to_base`. -/
def toBaseDiv (N : Nat) (number : List Nat) : List Nat × Nat :=
  number.foldl (toBaseStep N) ([], 0)

/-- The `while !number.is_empty()` loop of `to_base`, with an explicit fuel
bounding the number of iterations; each iteration emits one base-`N` digit
of the value, so `8 * bytes.length + 1` iterations always suffice (see
`to_base_eq_digits`). -/
def toBaseGo (N : Nat) : Nat → List Nat → List Nat
  | 0, _ => []
  | fuel + 1, number =>
      if number.isEmpty then []
      else
        let (quotient, remainder) := toBaseDiv N number
        remainder :: toBaseGo N fuel quotient

/-- `to_base::<N>` from `src/address.rs`: repeated division of the
big-endian byte string, least-significant digit first. -/
def to_base (N : Nat) (bytes : List Nat) : List Nat :=
  toBaseGo N (8 * bytes.length + 1) bytes

/-- The big-endian value of a byte string (the number `to_base` divides). -/
def msbValue (bytes : List Nat) : Nat :=
  bytes.foldl (fun a d => d + 256 * a) 0

/-- `Address::bech32_polymod`: the BCH checksum polynomial evaluation.  The
accumulator is a `u32` that stays below `2 ^ 30`, so plain `Nat` bitwise
operations model it exactly. -/
def bech32_polymod (bytes : List Nat) : Nat :=
  bytes.foldl
    (fun c v =>
      let c0 := c >>> 25
      let c := ((c &&& 0x1ffffff) <<< 5) ^^^ v
      let c := if c0 &&& 1 = 1 then c ^^^ 0x3b6a57b2 else c
      let c := if c0 &&& 2 = 2 then c ^^^ 0x26508e6d else c
      let c := if c0 &&& 4 = 4 then c ^^^ 0x1ea119fa else c
      let c := if c0 &&& 8 = 8 then c ^^^ 0x3d4233dd else c
      if c0 &&& 16 = 16 then c ^^^ 0x2a1462b3 else c)
    1

/-- `Address::expand_human_readable_part`. -/
def expand_human_readable_part (bytes : List Nat) : List Nat :=
  match bytes with
  | [b0, b1] => [b0 >>> 5, b1 >>> 5, 0, b0 &&& 0x1f, b1 &&& 0x1f]
  | _ => []

/-- `Address::bech32_checksum` (Bech32, constant `1`). -/
def bech32_checksum (bytes : List Nat) (chain : Chain) : List Nat :=
  let enc := expand_human_readable_part chain.hrp ++ bytes ++ List.replicate 6 0
  let m := bech32_polymod enc ^^^ 1
  (List.range 6).map (fun i => (m >>> (5 * (5 - i))) &&& 31)

/-- The Bech32 alphabet `"qpzry9x8gf2tvdw0s3jn54khce6mua7l"` as ASCII. -/
def bech32Alphabet : List Nat :=
  [113, 112, 122, 114, 121, 57, 120, 56, 103, 102, 50, 116, 118, 100, 119, 48,
   115, 51, 106, 110, 53, 52, 107, 104, 99, 101, 54, 109, 117, 97, 55, 108]

/-- `Address::encode_bech32`, producing the ASCII bytes of the address
string: hrp, separator `'1'`, the base-32 data (a `0` witness-version group
prepended to the re-grouped payload), and the checksum, all rendered
through the Bech32 alphabet. -/
def encode_bech32 (bytes : List Nat) (chain : Chain) : List Nat :=
  let inputBase32 := (to_base 32 bytes ++ [0]).reverse
  let checksum := bech32_checksum inputBase32 chain
  chain.hrp ++ [49] ++
    inputBase32.map (fun c => bech32Alphabet.getD c 0) ++
    checksum.map (fun c => bech32Alphabet.getD c 0)

/-! ### Long-division correctness of `to_base` -/

theorem msbValue_nil : msbValue [] = 0 := rfl

theorem msbValue_append_singleton (l : List Nat) (d : Nat) :
    msbValue (l ++ [d]) = d + 256 * msbValue l := by
  unfold msbValue
  rw [List.foldl_append]
  rfl

theorem msbValue_lt (bytes : List Nat) (h : ∀ b ∈ bytes, b < 256) :
    msbValue bytes < 256 ^ bytes.length := by
  suffices H : ∀ (bs : List Nat) (a : Nat), (∀ b ∈ bs, b < 256) →
      bs.foldl (fun a d => d + 256 * a) a < 256 ^ bs.length * (a + 1) by
    have := H bytes 0 h
    simpa [msbValue] using this
  intro bs
  induction bs with
  | nil => intro a _; simp
  | cons d t ih =>
      intro a hb
      have hd : d < 256 := hb d (by simp)
      have ht : ∀ b ∈ t, b < 256 := fun b h' => hb b (by simp [h'])
      calc (d :: t).foldl (fun a d => d + 256 * a) a
          = t.foldl (fun a d => d + 256 * a) (d + 256 * a) := by simp
        _ < 256 ^ t.length * (d + 256 * a + 1) := ih (d + 256 * a) ht
        _ ≤ 256 ^ t.length * (256 * (a + 1)) := by
            apply Nat.mul_le_mul_left
            omega
        _ = 256 ^ (d :: t).length * (a + 1) := by
            simp [List.length_cons, pow_succ]
            ring

/-- Invariant of the inner long-division loop of `to_base`: starting from a
quotient/remainder pair describing the already-processed value `v`, folding
the remaining bytes yields the quotient digits and remainder of the
extended value. -/
theorem toBaseStep_foldl (N : Nat) (hN : 0 < N) :
    ∀ (bytes : List Nat) (q : List Nat) (r v : Nat),
      msbValue q = v / N → r = v % N → (q = [] ↔ v / N = 0) →
      msbValue (bytes.foldl (toBaseStep N) (q, r)).1
          = (bytes.foldl (fun a d => d + 256 * a) v) / N ∧
      (bytes.foldl (toBaseStep N) (q, r)).2
          = (bytes.foldl (fun a d => d + 256 * a) v) % N ∧
      ((bytes.foldl (toBaseStep N) (q, r)).1 = []
          ↔ (bytes.foldl (fun a d => d + 256 * a) v) / N = 0) := by
  intro bytes
  induction bytes with
  | nil => intro q r v hq hr hiff; exact ⟨hq, hr, hiff⟩
  | cons d t ih =>
      intro q r v hq hr hiff
      have hstep : toBaseStep N (q, r) d =
          (if (d + 256 * r) / N > 0 ∨ ¬ q.isEmpty then q ++ [(d + 256 * r) / N] else q,
            (d + 256 * r) % N) := rfl
      have hsplit : d + 256 * v = N * (256 * (v / N)) + (d + 256 * r) := by
        rw [hr]
        have := Nat.div_add_mod v N
        ring_nf
        omega
      have hdiv : (d + 256 * v) / N = 256 * (v / N) + (d + 256 * r) / N := by
        rw [hsplit, Nat.mul_add_div hN]
      have hmod : (d + 256 * v) % N = (d + 256 * r) % N := by
        rw [hsplit, Nat.mul_add_mod]
      have hq1 : msbValue (toBaseStep N (q, r) d).1 = (d + 256 * v) / N := by
        rw [hstep]
        by_cases hc : (d + 256 * r) / N > 0 ∨ ¬ q.isEmpty
        · simp only [if_pos hc]
          rw [msbValue_append_singleton, hq, hdiv, Nat.add_comm]
        · simp only [if_neg hc]
          have h0 : (d + 256 * r) / N = 0 := by
            by_contra h
            exact hc (Or.inl (Nat.pos_of_ne_zero h))
          have hqnil : q = [] := by
            by_contra h
            exact hc (Or.inr (by simpa using h))
          have hv0 : v / N = 0 := hiff.mp hqnil
          rw [hqnil, msbValue_nil, hdiv, hv0, h0]
      have hr1 : (toBaseStep N (q, r) d).2 = (d + 256 * v) % N := by
        rw [hstep, hmod]
      have hiff1 : (toBaseStep N (q, r) d).1 = [] ↔ (d + 256 * v) / N = 0 := by
        rw [hstep]
        by_cases hc : (d + 256 * r) / N > 0 ∨ ¬ q.isEmpty
        · simp only [if_pos hc]
          constructor
          · intro h; exact absurd h (by simp)
          · intro h
            rw [hdiv] at h
            have hab := Nat.add_eq_zero.mp h
            rcases hc with h1 | h2
            · exact absurd hab.2 (Nat.pos_iff_ne_zero.mp h1)
            · have hvN : v / N = 0 :=
                (Nat.mul_eq_zero.mp hab.1).resolve_left (by norm_num)
              have hqne : q ≠ [] := by simpa using h2
              exact absurd (hiff.mpr hvN) hqne
        · simp only [if_neg hc]
          have h0 : (d + 256 * r) / N = 0 := by
            by_contra h
            exact hc (Or.inl (Nat.pos_of_ne_zero h))
          have hqnil : q = [] := by
            by_contra h
            exact hc (Or.inr (by simpa using h))
          have hv0 : v / N = 0 := hiff.mp hqnil
          simp only [hqnil, true_iff]
          rw [hdiv, hv0, h0]
      have := ih (toBaseStep N (q, r) d).1 (toBaseStep N (q, r) d).2 (d + 256 * v)
        hq1 (by rw [hr1]) hiff1
      simpa using this

theorem toBaseGo_nil (N fuel : Nat) : toBaseGo N fuel [] = [] := by
  cases fuel <;> rfl

/-- With enough fuel, the `to_base` loop computes exactly the little-endian
base-`N` digits of the big-endian value of the input (with `[0]` for a
nonempty all-zero input, matching the source's behaviour of emitting one
digit before the quotient empties). -/
theorem toBaseGo_eq_digits (N : Nat) (hN : 2 ≤ N) :
    ∀ (fuel : Nat) (bytes : List Nat),
      (Nat.digits N (msbValue bytes)).length < fuel →
      toBaseGo N fuel bytes =
        if bytes.isEmpty then []
        else if msbValue bytes = 0 then [0]
        else Nat.digits N (msbValue bytes) := by
  intro fuel
  induction fuel with
  | zero => intro bytes h; omega
  | succ fuel ih =>
      intro bytes hfuel
      by_cases hempty : bytes.isEmpty
      · have : bytes = [] := by simpa using hempty
        subst this
        simp [toBaseGo]
      · have hinv := toBaseStep_foldl N (by omega) bytes [] 0 0
          (by simp [msbValue_nil]) (by simp) (by simp)
        have hval : bytes.foldl (fun a d => d + 256 * a) 0 = msbValue bytes := rfl
        rw [hval] at hinv
        obtain ⟨hq, hr, hiff⟩ := hinv
        have hgo : toBaseGo N (fuel + 1) bytes =
            (bytes.foldl (toBaseStep N) ([], 0)).2 ::
              toBaseGo N fuel (bytes.foldl (toBaseStep N) ([], 0)).1 := by
          conv_lhs => rw [toBaseGo]
          rw [if_neg hempty, ← @Prod.mk.eta _ _ (toBaseDiv N bytes)]
          rfl
        rw [hgo, if_neg hempty]
        set v := msbValue bytes with hv
        set Q := (bytes.foldl (toBaseStep N) ([], 0)).1 with hQ
        set R := (bytes.foldl (toBaseStep N) ([], 0)).2 with hR
        by_cases hv0 : v = 0
        · have hQnil : Q = [] := hiff.mpr (by rw [hv0]; simp)
          rw [hQnil, toBaseGo_nil, if_pos hv0, hr, hv0]
          simp
        · rw [if_neg hv0]
          by_cases hvN : v / N = 0
          · have hQnil : Q = [] := hiff.mpr hvN
            rw [hQnil, toBaseGo_nil, hr]
            rw [Nat.digits_def' (by omega : 1 < N) (by omega : 0 < v), hvN]
            simp
          · have hQne : ¬ Q.isEmpty := by
              intro h
              exact hvN (hiff.mp (by simpa using h))
            have hdigits : Nat.digits N v = v % N :: Nat.digits N (v / N) :=
              Nat.digits_def' (by omega) (by omega)
            have hfuel' : (Nat.digits N (msbValue Q)).length < fuel := by
              rw [hq]
              rw [hdigits] at hfuel
              simp at hfuel
              omega
            rw [ih Q hfuel', if_neg hQne, if_neg (by rw [hq]; exact hvN), hq, hr,
              hdigits]

/-- `to_base` computes base-`N` digits: the packaged form with the fuel
`8 * bytes.length + 1` discharged. -/
theorem to_base_eq_digits (N : Nat) (hN : 2 ≤ N) (bytes : List Nat)
    (hb : ∀ b ∈ bytes, b < 256) :
    to_base N bytes =
      if bytes.isEmpty then []
      else if msbValue bytes = 0 then [0]
      else Nat.digits N (msbValue bytes) := by
  apply toBaseGo_eq_digits N hN
  by_cases hv : msbValue bytes = 0
  · rw [hv]; simp
  · rw [Nat.digits_len N _ (by omega) hv]
    have hlt : msbValue bytes < N ^ (8 * bytes.length) := by
      calc msbValue bytes < 256 ^ bytes.length := msbValue_lt bytes hb
        _ ≤ (N ^ 8) ^ bytes.length := by
            apply Nat.pow_le_pow_left
            calc (256:Nat) = 2 ^ 8 := by norm_num
              _ ≤ N ^ 8 := Nat.pow_le_pow_left (by omega) 8
        _ = N ^ (8 * bytes.length) := by rw [← pow_mul]
    have := Nat.log_lt_of_lt_pow hv hlt
    omega

/-- Group count of the Bech32 re-grouping for 20-byte payloads: at most 32
base-32 digits, and exactly 32 precisely when the value reaches `32 ^ 31`
(equivalently, when the leading byte is at least `8`). -/
theorem to_base32_length_of_hash160 (bytes : List Nat) (h20 : bytes.length = 20)
    (hb : ∀ b ∈ bytes, b < 256) :
    (to_base 32 bytes).length ≤ 32 ∧
    ((to_base 32 bytes).length = 32 ↔ 32 ^ 31 ≤ msbValue bytes) := by
  have hne : ¬ bytes.isEmpty := by
    cases bytes with
    | nil => simp at h20
    | cons a t => simp
  have hvlt : msbValue bytes < 32 ^ 32 := by
    have h1 := msbValue_lt bytes hb
    rw [h20] at h1
    calc msbValue bytes < 256 ^ 20 := h1
      _ = 32 ^ 32 := by norm_num
  rw [to_base_eq_digits 32 (by norm_num) bytes hb, if_neg hne]
  by_cases hv : msbValue bytes = 0
  · rw [if_pos hv, hv]
    refine ⟨by simp, ?_⟩
    constructor
    · intro h; simp at h
    · intro h
      exact absurd h (Nat.not_le.mpr (pow_pos (by norm_num) 31))
  · rw [if_neg hv]
    have hlen : (Nat.digits 32 (msbValue bytes)).length
        = Nat.log 32 (msbValue bytes) + 1 := Nat.digits_len 32 _ (by norm_num) hv
    have hloglt : Nat.log 32 (msbValue bytes) < 32 := Nat.log_lt_of_lt_pow hv hvlt
    rw [hlen]
    refine ⟨by omega, ?_⟩
    constructor
    · intro h
      have h31 : Nat.log 32 (msbValue bytes) = 31 := by omega
      have := Nat.pow_log_le_self 32 hv
      rwa [h31] at this
    · intro h
      have := Nat.log_eq_of_pow_le_of_lt_pow h (by exact hvlt)
      omega

set_option maxRecDepth 10000 in
/-- Claim C5 (amended): for every 20-byte hash160 payload, the Bech32
encoder produces at most 32 base-32 data groups — exactly 32 only when the
payload value reaches `32 ^ 31` — prepends a `0` witness-version group at
the head of the data, renders hrp, separator `'1'`, alphabet-mapped data
and alphabet-mapped checksum, and encoding the fixture hash `75 1e 76 e8 19
91 96 d4 54 94 1c 45 d1 b3 a3 23 f1 43 3b d6` (the byte `1e`, not the
claim's `30`) under MainNet yields the ASCII of
`bc1qw508d6qejxtdg4y5r3zarvary0c5xw7kv8f3t4`. -/
theorem claim_C5_bech32 (bytes : List Nat) (chain : Chain)
    (h20 : bytes.length = 20) (hb : ∀ b ∈ bytes, b < 256) :
    (to_base 32 bytes).length ≤ 32 ∧
    ((to_base 32 bytes).length = 32 ↔ 32 ^ 31 ≤ msbValue bytes) ∧
    ((to_base 32 bytes ++ [0]).reverse).head? = some 0 ∧
    encode_bech32 bytes chain =
      chain.hrp ++ [49] ++
        ((to_base 32 bytes ++ [0]).reverse).map (fun c => bech32Alphabet.getD c 0) ++
        (bech32_checksum ((to_base 32 bytes ++ [0]).reverse) chain).map
          (fun c => bech32Alphabet.getD c 0) ∧
    encode_bech32 [0x75, 0x1e, 0x76, 0xe8, 0x19, 0x91, 0x96, 0xd4, 0x54, 0x94,
        0x1c, 0x45, 0xd1, 0xb3, 0xa3, 0x23, 0xf1, 0x43, 0x3b, 0xd6] .mainNet =
      [98, 99, 49, 113, 119, 53, 48, 56, 100, 54, 113, 101, 106, 120, 116, 100,
       103, 52, 121, 53, 114, 51, 122, 97, 114, 118, 97, 114, 121, 48, 99, 53,
       120, 119, 55, 107, 118, 56, 102, 51, 116, 52] := by
  obtain ⟨hle, hiff⟩ := to_base32_length_of_hash160 bytes h20 hb
  refine ⟨hle, hiff, ?_, rfl, by decide⟩
  simp

set_option maxRecDepth 10000 in
/-- Claim C5 counterexample: the claim's fixture bytes (`75 30 76 ...`, with
second byte `30`) do not Bech32-encode to
`bc1qw508d6qejxtdg4y5r3zarvary0c5xw7kv8f3t4`, and the 20-byte payload
`00 ff ... ff` re-groups into only 31 base-32 data groups, not the
claimed "exactly 32". -/
theorem claim_C5_bech32_counterexample :
    encode_bech32 [0x75, 0x30, 0x76, 0xe8, 0x19, 0x91, 0x96, 0xd4, 0x54, 0x94,
        0x1c, 0x45, 0xd1, 0xb3, 0xa3, 0x23, 0xf1, 0x43, 0x3b, 0xd6] .mainNet ≠
      [98, 99, 49, 113, 119, 53, 48, 56, 100, 54, 113, 101, 106, 120, 116, 100,
       103, 52, 121, 53, 114, 51, 122, 97, 114, 118, 97, 114, 121, 48, 99, 53,
       120, 119, 55, 107, 118, 56, 102, 51, 116, 52] ∧
    (0 :: List.replicate 19 0xff : List Nat).length = 20 ∧
    (to_base 32 (0 :: List.replicate 19 0xff)).length = 31 := by
  refine ⟨by decide, by decide, by decide⟩

set_option maxRecDepth 10000 in
/-- Witness for claim C5: the amended theorem applied at the corrected
BIP-173 fixture payload. -/
theorem claim_C5_bech32_witness :
    ([0x75, 0x1e, 0x76, 0xe8, 0x19, 0x91, 0x96, 0xd4, 0x54, 0x94,
        0x1c, 0x45, 0xd1, 0xb3, 0xa3, 0x23, 0xf1, 0x43, 0x3b, 0xd6] : List Nat).length = 20 ∧
    (to_base 32 [0x75, 0x1e, 0x76, 0xe8, 0x19, 0x91, 0x96, 0xd4, 0x54, 0x94,
        0x1c, 0x45, 0xd1, 0xb3, 0xa3, 0x23, 0xf1, 0x43, 0x3b, 0xd6]).length ≤ 32 :=
  ⟨by decide,
    (claim_C5_bech32 [0x75, 0x1e, 0x76, 0xe8, 0x19, 0x91, 0x96, 0xd4, 0x54, 0x94,
        0x1c, 0x45, 0xd1, 0xb3, 0xa3, 0x23, 0xf1, 0x43, 0x3b, 0xd6] .mainNet
      (by decide) (by decide)).1⟩

/-! ## secp256k1 and ECDSA (`src/secp256k1/`, `src/public_key.rs`,
`src/signature.rs`).  The field and curve arithmetic lives in the external
`lambdaworks` collaborator (spec section 6) and is modelled here over
`ZMod`: affine points with a point at infinity, the chord-tangent group
law, and double-and-add scalar multiplication. -/

/-- The secp256k1 base-field modulus `p = 2^256 - 2^32 - 977`
(`BaseFieldModulus::MODULUS`, `src/secp256k1/fields.rs`). -/
def secp_p : Nat := 0xfffffffffffffffffffffffffffffffffffffffffffffffffffffffefffffc2f

/-- The secp256k1 scalar-field modulus `n` — the order of the generator
(`ScalarFieldModulus::MODULUS`, `src/secp256k1/fields.rs`). -/
def secp_n : Nat := 0xfffffffffffffffffffffffffffffffebaaedce6af48a03bbfd25e8cd0364141

/-- `BaseFelt`: the coordinate field of secp256k1. -/
abbrev BaseFelt := ZMod secp_p

/-- `ScalarFelt`: the scalar field of secp256k1. -/
abbrev ScalarFelt := ZMod secp_n

/-- Structural fast exponentiation in `ZMod m` (fuel bounds the recursion
depth; `257` covers every exponent below `2 ^ 257`). -/
def fpowGo {m : Nat} : Nat → ZMod m → Nat → ZMod m
  | 0, _, _ => 1
  | fuel + 1, a, e =>
      if e = 0 then 1
      else
        let h := fpowGo fuel (a * a) (e / 2)
        if e % 2 = 1 then a * h else h

/-- `a ^ e` in `ZMod m` by square-and-multiply, kernel-computable. -/
def fpow {m : Nat} (a : ZMod m) (e : Nat) : ZMod m := fpowGo 257 a e

/-- The field inverse of the external collaborator (`FieldElement::inv`),
modelled as the Fermat power `a ^ (m - 2)`: on the prime moduli `secp_p`
and `secp_n` this is the multiplicative inverse, and the source's `inv()`
fails exactly on `0`, a case every caller tests separately. -/
def finv {m : Nat} (a : ZMod m) : ZMod m := fpow a (m - 2)

/-- A secp256k1 point: `lambdaworks`'
`ShortWeierstrassProjectivePoint<Secp256k1>` up to projective scaling —
`inf` is the class with `z = 0` (the neutral element), `aff x y` the class
of `[x : y : 1]`. -/
inductive MPoint where
  | inf
  | aff (x y : BaseFelt)
deriving DecidableEq

/-- `Secp256k1::defining_equation` with `a() = 0`, `b() = 7`
(`src/secp256k1/curve.rs`): `y ^ 2 - (x ^ 3 + 7)`. -/
def definingEquation (x y : BaseFelt) : BaseFelt := y ^ 2 - x ^ 3 - 7

/-- `Secp256k1::generator()` (`GENERATOR_X`, `GENERATOR_Y` from
`src/secp256k1/curve.rs`). -/
def secp_G : MPoint :=
  .aff (0x79be667ef9dcbbac55a06295ce870b07029bfcdb2dce28d959f2815b16f81798 : BaseFelt)
       (0x483ada7726a3c4655da4fbfc0e1108a8fd17b448a68554199c47d08ffb10d4b8 : BaseFelt)

/-- The group operation of the external collaborator (`operate_with`): the
secp256k1 chord-tangent law on affine representatives (`a = 0`). -/
def addM : MPoint → MPoint → MPoint
  | .inf, q => q
  | p, .inf => p
  | .aff x1 y1, .aff x2 y2 =>
      if x1 = x2 then
        if y1 = -y2 then .inf
        else
          let l := (3 * x1 ^ 2) * finv (2 * y1)
          let x3 := l ^ 2 - x1 - x2
          .aff x3 (l * (x1 - x3) - y1)
      else
        let l := (y2 - y1) * finv (x2 - x1)
        let x3 := l ^ 2 - x1 - x2
        .aff x3 (l * (x1 - x3) - y1)

/-- Double-and-add scalar multiplication (`operate_with_self`), fuel on the
bit length; `257` covers every `U256` scalar. -/
def smulMGo : Nat → Nat → MPoint → MPoint
  | 0, _, _ => .inf
  | fuel + 1, k, p =>
      if k = 0 then .inf
      else
        let h := smulMGo fuel (k / 2) p
        let h2 := addM h h
        if k % 2 = 1 then addM h2 p else h2

/-- `point.operate_with_self(k)` for a `U256` scalar `k`. -/
def smulM (k : Nat) (p : MPoint) : MPoint := smulMGo 257 k p

/-- The affine x-coordinate (`point.x()` after `to_affine()`); the value at
`inf` is immaterial — every caller first rules the neutral element out. -/
def MPoint.xc : MPoint → BaseFelt
  | .inf => 0
  | .aff x _ => x

/-- The affine y-coordinate (`point.y()` after `to_affine()`). -/
def MPoint.yc : MPoint → BaseFelt
  | .inf => 0
  | .aff _ y => y

/-- `FeltSerializer::serialize` (`src/serializer/public_key.rs`): the
32-byte big-endian representative of a base-field element. -/
def FeltSerializer.serialize (x : BaseFelt) : List Nat :=
  U256BigEndianSerializer.serialize x.val

/-- `PublicKeyCompressedSerializer::serialize`: parity byte `2` (even `y`,
`limbs[3] & 1 == 0`) or `3` (odd `y`), then big-endian `x` — 33 bytes. -/
def PublicKeyCompressedSerializer.serialize (point : MPoint) : List Nat :=
  (if point.yc.val % 2 = 0 then 2 else 3) :: FeltSerializer.serialize point.xc

/-- `PublicKeyUncompressedSerializer::serialize`: the byte `4`, big-endian
`x`, big-endian `y` — 65 bytes. -/
def PublicKeyUncompressedSerializer.serialize (point : MPoint) : List Nat :=
  4 :: (FeltSerializer.serialize point.xc ++ FeltSerializer.serialize point.yc)

/-- `Script::p2pk` (`src/transaction.rs`): pushes the SEC serialization of
the key and the `OP_CHECKSIG` byte `0xac`, building the struct directly
without `Script::new`'s validation. -/
def Script.p2pk (public_key : MPoint) (compressed : Bool) : Script :=
  ⟨[.element (if compressed then PublicKeyCompressedSerializer.serialize public_key
              else PublicKeyUncompressedSerializer.serialize public_key),
    .operation 0xac]⟩

/-- `ECDSASignature` from `src/signature.rs`. -/
structure ECDSASignature where
  r : ScalarFelt
  s : ScalarFelt
deriving DecidableEq

/-- `ScalarFelt::new(point.x().representative())`: the affine x-coordinate
carried into the scalar field. -/
def MPoint.xScalar (p : MPoint) : ScalarFelt := (p.xc.val : ScalarFelt)

/-- `PublicKey::from_u256` (`src/public_key.rs`): the scalar multiple of
the generator; the raw 256-bit integer is *not* reduced mod `n` first. -/
def PublicKey.from_u256 (integer : Nat) : MPoint := smulM integer secp_G

/-- `PublicKey::from_private_key` (`src/public_key.rs`); the `PrivateKey`
type itself lives in `private_key.rs`, which is not in the tree — modelled
from the spec as the 32 big-endian bytes of the secret. -/
def PublicKey.from_private_key (s : List Nat) : MPoint :=
  PublicKey.from_u256 (fromBeBytes s)

/-- The `loop` of `EllipticCurveDigitalSignatureAlgorithm::sign`, the
random generator modelled as the list of scalars it yields: draws with
`k = 0` (`k.inv()` fails), `r = 0` or `s = 0` are skipped, the first
surviving draw returns `(r, s)`; `none` when the list runs out (the Rust
loop would keep drawing). -/
def signGo (z e : ScalarFelt) : List ScalarFelt → Option ECDSASignature
  | [] => none
  | k :: ks =>
      if k = 0 then signGo z e ks
      else
        let r := (smulM k.val secp_G).xScalar
        if r = 0 then signGo z e ks
        else
          let s := (z + e * r) * finv k
          if s = 0 then signGo z e ks
          else some ⟨r, s⟩

/-- `EllipticCurveDigitalSignatureAlgorithm::sign`: the 32-byte digest and
private key are read big-endian and reduced into the scalar field. -/
def ECDSA.sign (z private_key : List Nat) (nonces : List ScalarFelt) :
    Option ECDSASignature :=
  signGo ((fromBeBytes z : Nat) : ScalarFelt) ((fromBeBytes private_key : Nat) : ScalarFelt)
    nonces

/-- `EllipticCurveDigitalSignatureAlgorithm::verify`, check for check from
the source: reject the neutral element (projective `z() == 0`), points off
the defining equation, points whose `n`-multiple is not the neutral
element, `r = 0`, and `s = 0` (`s.inv()` fails); otherwise compare the
x-coordinate of `u·G + v·P` against `r`.  Every branch returns a plain
`Bool` — no panic. -/
def ECDSA.verify (z : List Nat) (signature : ECDSASignature) (public_key : MPoint) :
    Bool :=
  match public_key with
  | .inf => false
  | .aff x y =>
      if definingEquation x y ≠ 0 then false
      else if smulM secp_n (.aff x y) ≠ .inf then false
      else if signature.r ≠ 0 then
        if signature.s = 0 then false
        else
          let sInv := finv signature.s
          let u := ((fromBeBytes z : Nat) : ScalarFelt) * sInv
          let v := signature.r * sInv
          let point := addM (smulM u.val secp_G) (smulM v.val (.aff x y))
          decide (point.xScalar = signature.r)
      else false

theorem beBytes_length (k v : Nat) : (beBytes k v).length = k := by
  simp [beBytes, leBytes_length]

/-- Claim C10: every `Script` reachable through the public constructors
satisfies the invariant.  `Script::new` only accepts command lists in
which every `Operation` byte exceeds 77 and every `Element` is shorter
than `0x10000` bytes; `Script::empty` holds no commands; and
`Script::p2pk` — which bypasses `Script::new` — pushes a 33-byte
(compressed) or 65-byte (uncompressed) SEC public key followed by the
operation byte `0xac`, all of which satisfy the invariant. -/
theorem claim_C10_script_invariant (commands : List Command) (s : Script)
    (hnew : Script.new commands = .ok s) (pk : MPoint) (compressed : Bool) :
    (∀ c ∈ s.commands, c.valid) ∧
    (∀ c ∈ Script.empty.commands, c.valid) ∧
    (∀ c ∈ (Script.p2pk pk compressed).commands, c.valid) ∧
    (Script.p2pk pk compressed).commands =
      [.element (if compressed then PublicKeyCompressedSerializer.serialize pk
                 else PublicKeyUncompressedSerializer.serialize pk),
       .operation 0xac] ∧
    (if compressed then (PublicKeyCompressedSerializer.serialize pk).length = 33
     else (PublicKeyUncompressedSerializer.serialize pk).length = 65) := by
  have hlenc : (PublicKeyCompressedSerializer.serialize pk).length = 33 := by
    simp [PublicKeyCompressedSerializer.serialize, FeltSerializer.serialize,
      U256BigEndianSerializer.serialize, beBytes_length]
  have hlenu : (PublicKeyUncompressedSerializer.serialize pk).length = 65 := by
    simp [PublicKeyUncompressedSerializer.serialize, FeltSerializer.serialize,
      U256BigEndianSerializer.serialize, beBytes_length]
  refine ⟨?_, ?_, ?_, ?_, ?_⟩
  · intro c hc
    unfold Script.new at hnew
    by_cases hall : commands.all (fun c => decide c.valid)
    · rw [if_pos hall] at hnew
      injection hnew with hs
      subst hs
      have := List.all_eq_true.mp hall c hc
      exact of_decide_eq_true this
    · rw [if_neg hall] at hnew
      exact absurd hnew (by simp)
  · intro c hc
    simp [Script.empty] at hc
  · intro c hc
    simp only [Script.p2pk, List.mem_cons, List.not_mem_nil, or_false] at hc
    rcases hc with hc | hc
    · subst hc
      show (if compressed then _ else _ : List Nat).length < 0x10000
      cases compressed
      · rw [if_neg (by simp), hlenu]; omega
      · rw [if_pos rfl, hlenc]; omega
    · subst hc
      show (0xac : Nat) > 77
      omega
  · rfl
  · cases compressed
    · rw [if_neg (by simp)]; exact hlenu
    · rw [if_pos rfl]; exact hlenc

/-- Witness for claim C10: a concrete accepted command list and the p2pk
script of the generator key. -/
theorem claim_C10_script_invariant_witness :
    Script.new [Command.operation 100] = .ok ⟨[Command.operation 100]⟩ ∧
    (∀ c ∈ (Script.p2pk secp_G true).commands, c.valid) :=
  ⟨by decide,
    (claim_C10_script_invariant [Command.operation 100] ⟨[Command.operation 100]⟩
      (by decide) secp_G true).2.2.1⟩

/-- Claim C6: `verify` returns `false` — by an ordinary return, never a
panic — whenever the public key is the neutral element, or lies off the
curve's defining equation, or its `n`-multiple is not the neutral element,
or `r = 0`, or `s = 0`: every malformed input yields the same boolean
`false` as a genuine mismatch. -/
theorem claim_C6_verify_rejects_malformed (z : List Nat) (sig : ECDSASignature)
    (pk : MPoint)
    (h : pk = .inf ∨
         (∀ x y, pk = .aff x y → definingEquation x y ≠ 0) ∨
         smulM secp_n pk ≠ .inf ∨
         sig.r = 0 ∨ sig.s = 0) :
    ECDSA.verify z sig pk = false := by
  cases pk with
  | inf => rfl
  | aff x y =>
      simp only [ECDSA.verify]
      by_cases h1 : definingEquation x y ≠ 0
      · rw [if_pos h1]
      · rw [if_neg h1]
        by_cases h2 : smulM secp_n (MPoint.aff x y) ≠ .inf
        · rw [if_pos h2]
        · rw [if_neg h2]
          rcases h with h | h | h | h | h
          · exact absurd h (by simp)
          · exact absurd (h x y rfl) h1
          · exact absurd h h2
          · rw [if_neg (show ¬ sig.r ≠ 0 from fun hn => hn h)]
          · by_cases h3 : sig.r ≠ 0
            · rw [if_pos h3, if_pos h]
            · rw [if_neg h3]

/-- Witness for claim C6: the neutral public key is rejected. -/
theorem claim_C6_verify_rejects_malformed_witness :
    ECDSA.verify [] ⟨1, 1⟩ .inf = false :=
  claim_C6_verify_rejects_malformed [] ⟨1, 1⟩ .inf (Or.inl rfl)

set_option maxRecDepth 4000 in
/-- Claim C1 fails on the all-zero private key: with digest bytes of value
`1` and private-key bytes all zero, the nonce `k = 1` satisfies every side
condition the claim allows the nonce source to impose (`k` invertible, the
resulting `r` and `s` nonzero), `sign` returns the signature
`(Gx mod n, 1)` — yet `verify` rejects it, because
`PublicKey::from_private_key` maps the secret `0` to the neutral element,
which `verify`'s first check refuses.  The code validates the private key
nowhere. -/
theorem claim_C1_sign_verify_mismatch :
    ECDSA.sign (List.replicate 31 0 ++ [1]) (List.replicate 32 0) [1]
      = some ⟨(0x79be667ef9dcbbac55a06295ce870b07029bfcdb2dce28d959f2815b16f81798 :
          ScalarFelt), 1⟩ ∧
    ECDSA.verify (List.replicate 31 0 ++ [1])
        ⟨(0x79be667ef9dcbbac55a06295ce870b07029bfcdb2dce28d959f2815b16f81798 :
          ScalarFelt), 1⟩
        (PublicKey.from_private_key (List.replicate 32 0)) = false := by
  constructor
  · decide
  · decide

end BitcoinRs
